import Mathlib

/-!
A shallow embedding of the passphrase generator `src/passgen.cpp`.

A `std::string` is modelled as a list of characters, a digest as a list of
bytes.  The `uint32_t` accumulator of the base-32 encoder is a natural number
reduced modulo `2 ^ 32` after every assignment.  The external world (process
environment, readable files, random draws, the keyed digest, the clock) is an
explicit parameter of `main`.
-/

namespace Passgen

/-- A `std::string`: a sequence of `char`. -/
abbrev Str := List Char

/-- An `unsigned char`. -/
abbrev Byte := Fin 256

/-! ## Base-32 encoding (`base32_encode_no_pad`, lines 100-122) -/

/-- The table `alphabet` of `base32_encode_no_pad`. -/
def alphabet : Str := "ABCDEFGHIJKLMNOPQRSTUVWXYZ234567".toList

/-- The read `alphabet[idx]`; index 32 of the C string literal is its
terminating NUL, and the encoder only ever reads indices below 32. -/
def alphabetAt (idx : Nat) : Char := alphabet.getD idx (Char.ofNat 0)

/-- The inner loop `while (bits_left >= 5) { ... }`.  The first argument bounds
the number of iterations; every iteration lowers `bits_left` by 5, so a bound
of `bits_left` iterations is never reached (`emitGroups_exit`).  The buffer is
not modified by the loop; the result is the final `bits_left` and `out`. -/
def emitGroups : Nat → Nat → Nat → Str → Nat × Str
  | 0, _, bits_left, out => (bits_left, out)
  | fuel + 1, buffer, bits_left, out =>
    if 5 ≤ bits_left then
      let idx := (buffer >>> (bits_left - 5)) &&& 0x1F
      emitGroups fuel buffer (bits_left - 5) (out ++ [alphabetAt idx])
    else (bits_left, out)

/-- The outer loop `for (size_t i = 0; i < len; ++i)`, over the bytes that are
still to be read, with the state `(buffer, bits_left, out)`. -/
def encodeLoop : List Byte → Nat → Nat → Str → Nat × Nat × Str
  | [], buffer, bits_left, out => (buffer, bits_left, out)
  | d :: rest, buffer, bits_left, out =>
    let buffer := ((buffer <<< 8) ||| d.val) % 2 ^ 32
    let bits_left := bits_left + 8
    let r := emitGroups bits_left buffer bits_left out
    encodeLoop rest buffer r.1 r.2

/-- The function `base32_encode_no_pad(data, len)`. -/
def base32_encode_no_pad (data : List Byte) : Str :=
  let r := encodeLoop data 0 0 []
  let buffer := r.1
  let bits_left := r.2.1
  let out := r.2.2
  if 0 < bits_left then
    let idx := ((buffer <<< (5 - bits_left)) % 2 ^ 32) &&& 0x1F
    out ++ [alphabetAt idx]
  else out

/-! ## Reference encoding, following the words of the specification -/

/-- The eight bits of a byte, most significant first. -/
def bitsOfByte (b : Byte) : List Bool :=
  [b.val.testBit 7, b.val.testBit 6, b.val.testBit 5, b.val.testBit 4,
   b.val.testBit 3, b.val.testBit 2, b.val.testBit 1, b.val.testBit 0]

/-- The bytes written as one string of `8 * n` bits. -/
def bitString (data : List Byte) : List Bool := data.flatMap bitsOfByte

/-- Zero bits appended on the low end, up to the next multiple of 5. -/
def padLow (bits : List Bool) : List Bool :=
  bits ++ List.replicate ((5 - bits.length % 5) % 5) false

/-- A bit string cut into groups of 5 (a shorter tail, which padding excludes,
would be a group of its own). -/
def groupsOf5 : List Bool → List (List Bool)
  | a :: b :: c :: d :: e :: rest => [a, b, c, d, e] :: groupsOf5 rest
  | [] => []
  | [a] => [[a]]
  | [a, b] => [[a, b]]
  | [a, b, c] => [[a, b, c]]
  | [a, b, c, d] => [[a, b, c, d]]

/-- The number a bit string denotes, most significant bit first. -/
def groupValue (g : List Bool) : Nat := g.foldl (fun acc b => 2 * acc + b.toNat) 0

/-- Unpadded RFC 4648 base 32 as the specification words it: bits, pad, split,
map through the alphabet. -/
def rfc4648_base32 (data : List Byte) : Str :=
  (groupsOf5 (padLow (bitString data))).map (fun g => alphabetAt (groupValue g))


/-! ## String helpers (`trim`, `capitalize_first`, lines 15-27)

The program never calls `setlocale`, so `std::isspace` and `std::toupper` are
those of the "C" locale. -/

/-- The classification `std::isspace`: space, `\t`, `\n`, `\v`, `\f`, `\r`. -/
def isspace (c : Char) : Bool := c = ' ' || (9 ≤ c.toNat && c.toNat ≤ 13)

/-- The mapping `std::toupper`: `a`..`z` go to `A`..`Z`, all else is unchanged. -/
def toupper (c : Char) : Char :=
  if 97 ≤ c.toNat ∧ c.toNat ≤ 122 then Char.ofNat (c.toNat - 32) else c

/-- The function `trim`: `start` skips leading white space, then `end` backs
over trailing white space without passing `start`. -/
def trim (s : Str) : Str :=
  ((s.dropWhile isspace).reverse.dropWhile isspace).reverse

/-- The function `capitalize_first`. -/
def capitalize_first : Str → Str
  | [] => []
  | c :: rest => toupper c :: rest

/-! ## Process environment and `.env` loading (lines 56-98) -/

/-- The process environment: name/value pairs, first match wins. -/
abbrev Env := List (Str × Str)

/-- The conversion `std::string::c_str()` as a C function reads it: up to the
first NUL. -/
def c_str (s : Str) : Str := s.takeWhile (fun c => c ≠ Char.ofNat 0)

/-- The call `std::getenv(name)`; `none` is the null pointer. -/
def getenv : Env → Str → Option Str
  | [], _ => none
  | (k, v) :: rest, name => if k = name then some v else getenv rest name

/-- The function `get_env_or_empty`. -/
def get_env_or_empty (env : Env) (key : Str) : Str :=
  match getenv env key with
  | some v => v
  | none => []

/-- The function `set_env_if_missing` (the non-Windows branch): `setenv` with
`overwrite = 0`, which rejects an empty name and a name that contains `=`. -/
def set_env_if_missing (env : Env) (key val : Str) : Env :=
  if (getenv env (c_str key)).isSome then env
  else if c_str key = [] ∨ '=' ∈ c_str key then env
  else env ++ [(c_str key, c_str val)]

/-- The lines `std::getline` yields for a file of the given content: pieces
between newlines; a final piece is returned only when it is not empty. -/
def getlinesFrom : Str → Str → List Str
  | [], cur => if cur = [] then [] else [cur]
  | c :: rest, cur =>
    if c = '\n' then cur :: getlinesFrom rest [] else getlinesFrom rest (cur ++ [c])

/-- All lines of a file, see `getlinesFrom`. -/
def getlines (content : Str) : List Str := getlinesFrom content []

/-- The quote stripping of `load_dotenv` (lines 89-92); character 34 is the
double quote, 39 the single quote. -/
def stripQuotes (val : Str) : Str :=
  if 2 ≤ val.length ∧
      ((val.head? = some (Char.ofNat 34) ∧ val.getLast? = some (Char.ofNat 34)) ∨
       (val.head? = some (Char.ofNat 39) ∧ val.getLast? = some (Char.ofNat 39))) then
    (val.drop 1).take (val.length - 2)
  else val

/-- One iteration of the `while (std::getline(in, line))` loop of `load_dotenv`. -/
def dotenvLine (env : Env) (line : Str) : Env :=
  let line := trim line
  if line = [] ∨ line.head? = some '#' then env
  else if '=' ∈ line then
    let key := trim (line.takeWhile (fun c => c ≠ '='))
    let val := trim ((line.dropWhile (fun c => c ≠ '=')).drop 1)
    let val := stripQuotes val
    if key ≠ [] then set_env_if_missing env key val else env
  else env

/-- The function `load_dotenv`, given what opening a file for reading yields
(`none`: the stream is not good) and the environment before the call. -/
def load_dotenv (file : Str → Option Str) (env_path : Str) (env : Env) : Env :=
  match file env_path with
  | none => env
  | some content => (getlines content).foldl dotenvLine env

/-! ## The pepper tag (`pepper_tag4`, lines 124-138) -/

/-- The function `pepper_tag4`.  The keyed digest is a parameter: `hmac key msg`
is the `out_len` bytes that `HMAC(EVP_sha256(), ...)` leaves in `digest`. -/
def pepper_tag4 (hmac : Str → Str → List Byte) (base_password pepper : Str) : Str :=
  let b32 := base32_encode_no_pad (hmac pepper base_password)
  if b32.length < 4 then "AAAA".toList
  else b32.take 4

/-! ## Argument parsing (lines 140-201) -/

/-- The exceptions `std::stoi` throws. -/
inductive StoiError
  | invalid_argument
  | out_of_range
deriving DecidableEq, Repr

/-- The call `std::stoi(s)`: skip white space, read an optional sign and the
longest run of decimal digits, ignore what follows; no digit is
`std::invalid_argument`, a value outside `int` is `std::out_of_range`. -/
def stoi (s : Str) : Except StoiError Int :=
  let s1 := s.dropWhile isspace
  let neg := s1.head? = some '-'
  let s2 := if s1.head? = some '-' ∨ s1.head? = some '+' then s1.drop 1 else s1
  let ds := s2.takeWhile Char.isDigit
  if ds = [] then .error .invalid_argument
  else
    let v : Int := (ds.foldl (fun acc c => 10 * acc + (c.toNat - 48)) 0 : Nat)
    let n : Int := if neg then -v else v
    if n < -2147483648 ∨ 2147483647 < n then .error .out_of_range else .ok n

/-- The local variables of `main` that the flags set (lines 142-148). -/
structure Config where
  wordspath : Str
  count : Int
  words_per_password : Int
  do_cap : Bool
  logfile : Str
  envfile : Str
  use_pepper : Bool
deriving DecidableEq, Repr

/-- The defaults of lines 142-148. -/
def defaults : Config :=
  { wordspath := "words.txt".toList, count := 5, words_per_password := 2, do_cap := true,
    logfile := [], envfile := ".env".toList, use_pepper := false }

/-- How the flag loop ends. -/
inductive Parsed
  | ok (c : Config)
  | help
  | unknown (arg : Str)
  | throws (e : StoiError)
deriving DecidableEq, Repr

/-- The test `first.rfind("--", 0) != 0` negated: `first` starts with `--`. -/
def startsWithDashes : Str → Bool
  | '-' :: '-' :: _ => true
  | _ => false

/-- The test of lines 161-167: the first argument is taken as the word list. -/
def isPositional (first : Str) : Bool := first ≠ [] && !startsWithDashes first

/-- The arguments the flag loop starts at (those from index `i` on, after
lines 160-167); `args` is `argv[1..]`. -/
def flagArgs : List Str → List Str
  | [] => []
  | first :: rest => if isPositional first then rest else first :: rest

/-- The configuration the flag loop starts with. -/
def initialConfig : List Str → Config
  | [] => defaults
  | first :: _ => if isPositional first then { defaults with wordspath := first } else defaults

/-- The flag loop `for (; i < argc; ++i)` (lines 170-201) over the arguments
still to be read.  `rest ≠ []` is the test `i + 1 < argc`. -/
def parseFlags (c : Config) : List Str → Parsed
  | [] => .ok c
  | arg :: rest =>
    if arg = "-h".toList ∨ arg = "--help".toList then .help
    else match rest with
      | v :: rest' =>
        if arg = "--count".toList then
          match stoi v with
          | .ok n => parseFlags { c with count := max 1 n } rest'
          | .error e => .throws e
        else if arg = "--words".toList then
          match stoi v with
          | .ok n => parseFlags { c with words_per_password := max 1 n } rest'
          | .error e => .throws e
        else if arg = "--log".toList then parseFlags { c with logfile := v } rest'
        else if arg = "--capitalize".toList then parseFlags { c with do_cap := true } (v :: rest')
        else if arg = "--no-capitalize".toList then
          parseFlags { c with do_cap := false } (v :: rest')
        else if arg = "--wordspath".toList then parseFlags { c with wordspath := v } rest'
        else if arg = "--pepper".toList then parseFlags { c with use_pepper := true } (v :: rest')
        else if arg = "--env".toList then parseFlags { c with envfile := v } rest'
        else .unknown arg
      | [] =>
        if arg = "--capitalize".toList then .ok { c with do_cap := true }
        else if arg = "--no-capitalize".toList then .ok { c with do_cap := false }
        else if arg = "--pepper".toList then .ok { c with use_pepper := true }
        else .unknown arg

/-- Lines 160-201 as a whole, on `argv[1..]`. -/
def parseArgs (args : List Str) : Parsed := parseFlags (initialConfig args) (flagArgs args)


/-! ## The run of `main` (lines 140-293) -/

/-- Everything outside the program that a run depends on. -/
structure World where
  /-- The process environment at start. -/
  environ : Env
  /-- The content an input file stream reads at a path; `none` when opening
  fails.  Files are taken not to change while the program runs. -/
  file : Str → Option Str
  /-- Whether opening a path for appending succeeds. -/
  logOpens : Str → Bool
  /-- The bytes `HMAC(EVP_sha256(), key, msg)` writes (its first `out_len`). -/
  hmac : Str → Str → List Byte
  /-- The positions `std::sample` chooses in pass `n` of the generation loop,
  as one flag per entry of the word list. -/
  sample : Nat → List Bool
  /-- The value `fourDigits(gen)` in pass `n`. -/
  fourDigits : Nat → Nat
  /-- What `current_local_timestamp_jst()` returns in pass `n`. -/
  timestamp : Nat → Str

/-- How the process ends: `main` returns a code, or an exception that nothing
catches leaves `main` (`std::terminate`, no exit code of the program's choosing). -/
inductive Outcome
  | exit (code : Int)
  | uncaught (e : StoiError)
deriving DecidableEq, Repr

/-- What a run leaves behind: how it ended, the lines written to `std::cout`,
the pieces written to `std::cerr`, and the lines appended to the log file. -/
structure Result where
  outcome : Outcome
  stdout : List Str
  stderr : List Str
  log : List Str
deriving DecidableEq, Repr

/-- The text `print_usage(prog)` writes to `std::cerr`. -/
def print_usage (prog : Str) : Str :=
  "Usage:\n".toList ++ "  ".toList ++ prog
    ++ " [wordlist.txt] [--count N] [--words N] [--log <file>] [--no-capitalize]\n\n".toList
    ++ "Defaults:\n".toList
    ++ "  wordlist.txt     = words.txt\n".toList
    ++ "  --count N        = 5\n".toList
    ++ "  --words N        = 2\n".toList
    ++ "  --log <file>     = generator.log\n".toList
    ++ "  capitalization   = enabled (use --no-capitalize to disable)\n".toList

/-- The name of the environment variable that holds the pepper. -/
def PASSGEN_PEPPER : Str := "PASSGEN_PEPPER".toList

/-- The word-list loop (lines 223-228): trimmed lines, empty ones skipped. -/
def loadWords (content : Str) : List Str :=
  ((getlines content).map trim).filter (fun w => w ≠ [])

/-- The elements `std::sample` copies to `pick` for a choice of positions:
the chosen entries, in the order of the list. -/
def select : List Str → List Bool → List Str
  | w :: ws, true :: m => w :: select ws m
  | _ :: ws, false :: m => select ws m
  | _, _ => []

/-- The loop of lines 267-270, `for (int w = 0; w < words_per_password; ++w)`,
with the passes still to run, the index `w` and the text written so far. -/
def joinWords (pick : List Str) : Nat → Nat → Str → Str
  | 0, _, oss => oss
  | k + 1, w, oss =>
    let oss := if 0 < w then oss ++ "-".toList else oss
    joinWords pick k (w + 1) (oss ++ pick.getD w [])

/-- The output of `std::setw(4) << std::setfill('0') << num` for `num ≥ 0`:
the decimal digits, filled on the left with `0` to width 4. -/
def fourDigitField (num : Nat) : Str :=
  List.replicate (4 - (Nat.toDigits 10 num).length) '0' ++ Nat.toDigits 10 num

/-- Lines 260-273: the passphrase before tagging, from the words `std::sample`
returned and the number drawn. -/
def passwordBase (c : Config) (pick : List Str) (num : Nat) : Str :=
  let pick := if c.do_cap then pick.map capitalize_first else pick
  joinWords pick c.words_per_password.toNat 0 [] ++ "-".toList ++ fourDigitField num

/-- The generation loop `for (int n = 0; n < count; ++n)` (lines 250-290), with
the environment, the passes still to run, the index `n`, and what was written
so far to `std::cout` and to the log.  Text reaches a log file exactly when one
was named (it is open by then); a stream that was never opened writes nowhere. -/
def generate (w : World) (c : Config) (words : List Str) :
    Env → Nat → Nat → List Str → List Str → Result
  | _, 0, _, out, log => ⟨.exit 0, out, [], log⟩
  | env, k + 1, n, out, log =>
    let pick := select words (w.sample n)
    if pick.length < c.words_per_password.toNat then
      ⟨.exit 1, out,
        ["Internal error: failed to select ".toList
          ++ Nat.toDigits 10 c.words_per_password.toNat ++ " words.\n".toList], log⟩
    else
      let password := passwordBase c pick (w.fourDigits n)
      if c.use_pepper then
        let env := load_dotenv w.file c.envfile env
        let pepper := get_env_or_empty env PASSGEN_PEPPER
        if pepper = [] then ⟨.exit 1, out, [], log⟩
        else
          let password := password ++ "-".toList ++ pepper_tag4 w.hmac password pepper
          generate w c words env k (n + 1) (out ++ [password])
            (if c.logfile ≠ [] then log ++ [w.timestamp n ++ " - ".toList ++ password] else log)
      else
        generate w c words env k (n + 1) (out ++ [password])
          (if c.logfile ≠ [] then log ++ [w.timestamp n ++ " - ".toList ++ password] else log)

/-- The environment after the two loads that precede the pepper check: `.env`
at line 150 and, under `--pepper`, the `--env` file at line 204. -/
def envAfterLoad (w : World) (c : Config) : Env :=
  if c.use_pepper then
    load_dotenv w.file c.envfile (load_dotenv w.file ".env".toList w.environ)
  else load_dotenv w.file ".env".toList w.environ

/-- The function `main`, for `argv[0] = prog` and `argv[1..] = args`.  At
lines 153-157 `use_pepper` is still `false`, so that block does nothing.  When
`std::stoi` throws, nothing has been written yet; what the C++ runtime itself
prints while it terminates the process is not part of the result. -/
def main (w : World) (prog : Str) (args : List Str) : Result :=
  match parseArgs args with
  | .help => ⟨.exit 0, [], [print_usage prog], []⟩
  | .unknown arg =>
    ⟨.exit 1, [], ["Unknown option: ".toList ++ arg ++ "\n".toList, print_usage prog], []⟩
  | .throws e => ⟨.uncaught e, [], [], []⟩
  | .ok c =>
    if c.use_pepper ∧ get_env_or_empty (envAfterLoad w c) PASSGEN_PEPPER = [] then
      ⟨.exit 1, [],
        [("Error: --pepper was set but PASSGEN_PEPPER is not defined.\n"
          ++ "Set PASSGEN_PEPPER in your environment or create a .env file.\n").toList], []⟩
    else
      match w.file c.wordspath with
      | none =>
        ⟨.exit 1, [], ["Failed to open word list: ".toList ++ c.wordspath ++ "\n".toList], []⟩
      | some content =>
        if (loadWords content).length < c.words_per_password.toNat then
          ⟨.exit 1, [],
            ["Word list must contain at least ".toList
              ++ Nat.toDigits 10 c.words_per_password.toNat
              ++ " non-empty lines.\n".toList], []⟩
        else if c.logfile ≠ [] ∧ w.logOpens c.logfile = false then
          ⟨.exit 1, [],
            ["Error: could not open log file '".toList ++ c.logfile ++ "'.\n".toList], []⟩
        else
          generate w c (loadWords content) (envAfterLoad w c) c.count.toNat 0 [] []

/-! ## Auxiliary definitions used in the statements and proofs -/

/-- The complete 5-bit groups of a bit string. -/
def fullGroups : List Bool → List (List Bool)
  | a :: b :: c :: d :: e :: rest => [a, b, c, d, e] :: fullGroups rest
  | [] => []
  | [_] => []
  | [_, _] => []
  | [_, _, _] => []
  | [_, _, _, _] => []

/-- The bits after the last complete group. -/
def leftover : List Bool → List Bool
  | _ :: _ :: _ :: _ :: _ :: rest => leftover rest
  | [] => []
  | [a] => [a]
  | [a, b] => [a, b]
  | [a, b, c] => [a, b, c]
  | [a, b, c, d] => [a, b, c, d]

/-- The number a string of decimal digits denotes. -/
def decimalValue (s : Str) : Nat := s.foldl (fun acc ch => 10 * acc + (ch.toNat - 48)) 0

/-- One of the 32 symbols `A`-`Z`, `2`-`7`. -/
def isBase32Symbol (ch : Char) : Prop :=
  (65 ≤ ch.toNat ∧ ch.toNat ≤ 90) ∨ (50 ≤ ch.toNat ∧ ch.toNat ≤ 55)

/-- Four decimal digits, leading zeros kept. -/
def decimal4 (num : Nat) : Str :=
  [Nat.digitChar (num / 1000), Nat.digitChar (num / 100 % 10),
   Nat.digitChar (num / 10 % 10), Nat.digitChar (num % 10)]

/-- The line that pass `n` of the generation loop prints (lines 260-284), given
the word list and the pepper. -/
def printedLine (w : World) (c : Config) (words : List Str) (pepper : Str) (n : Nat) : Str :=
  let password := passwordBase c (select words (w.sample n)) (w.fourDigits n)
  if c.use_pepper then password ++ "-".toList ++ pepper_tag4 w.hmac password pepper
  else password

/-- The line that pass `n` appends to the log. -/
def loggedLine (w : World) (c : Config) (words : List Str) (pepper : Str) (n : Nat) : Str :=
  w.timestamp n ++ " - ".toList ++ printedLine w c words pepper n

/-- A choice `std::sample` can make for a list of `k` entries and a request of
`m`: one flag per entry, `min m k` of them set. -/
def IsSampleOf (k m : Nat) (mask : List Bool) : Prop :=
  mask.length = k ∧ mask.count true = min m k

/-- Whether a list of flags is a choice `std::sample` can make is decidable. -/
instance (k m : Nat) (mask : List Bool) : Decidable (IsSampleOf k m mask) := by
  unfold IsSampleOf
  exact inferInstance

/-- The set of strings the flag loop compares an argument with. -/
def knownFlags : List Str :=
  ["-h".toList, "--help".toList, "--count".toList, "--words".toList, "--log".toList,
   "--capitalize".toList, "--no-capitalize".toList, "--wordspath".toList,
   "--pepper".toList, "--env".toList]

/-! ## Concrete worlds for the examples -/

/-- A world with a four-word `words.txt`, a pepper in the environment and fixed
outcomes for the random draws. -/
def exampleWorld : World :=
  { environ := [("PASSGEN_PEPPER".toList, "secret".toList)]
    file := fun p =>
      if p = "words.txt".toList then some "alpha\n  bravo \r\n\ncharlie\ndelta".toList else none
    logOpens := fun _ => true
    hmac := fun _ _ => List.replicate 32 0
    sample := fun n => if n % 2 = 0 then [true, false, true, false] else [false, true, true, false]
    fourDigits := fun n => 7 * n + 42
    timestamp := fun _ => "2026-01-01 00:00:00 JST".toList }

/-- A world whose `words.txt` holds the same word on both of its lines. -/
def repeatedWordWorld : World :=
  { exampleWorld with
    file := fun p => if p = "words.txt".toList then some "alpha\nalpha\n".toList else none
    sample := fun _ => [true, true] }

/-- A world without a pepper and without any `.env` file. -/
def noPepperWorld : World := { exampleWorld with environ := [] }

/-! ## The encoder computes the reference encoding -/

theorem foldl_bits (l : List Bool) (a : Nat) :
    l.foldl (fun acc b => 2 * acc + b.toNat) a
      = a * 2 ^ l.length + l.foldl (fun acc b => 2 * acc + b.toNat) 0 := by
  induction l generalizing a with
  | nil => simp
  | cons x xs ih =>
    simp only [List.foldl_cons, List.length_cons]
    rw [ih (2 * a + x.toNat), ih (2 * 0 + x.toNat)]
    ring

theorem groupValue_append (xs ys : List Bool) :
    groupValue (xs ++ ys) = groupValue xs * 2 ^ ys.length + groupValue ys := by
  unfold groupValue
  rw [List.foldl_append, foldl_bits]

theorem groupValue_lt (l : List Bool) : groupValue l < 2 ^ l.length := by
  induction l using List.reverseRecOn with
  | nil => simp [groupValue]
  | append_singleton xs x ih =>
    rw [groupValue_append]
    have hx : groupValue [x] ≤ 1 := by cases x <;> simp [groupValue]
    simp only [List.length_append, List.length_singleton, pow_succ, pow_zero, one_mul]
    omega

theorem groupValue_bitsOfByte (b : Byte) : groupValue (bitsOfByte b) = b.val := by
  revert b
  set_option maxRecDepth 100000 in decide

theorem bitsOfByte_length (b : Byte) : (bitsOfByte b).length = 8 := rfl

theorem leftover_length (l : List Bool) : (leftover l).length = l.length % 5 := by
  induction l using leftover.induct with
  | case1 a b c d e rest ih =>
    simp only [leftover, List.length_cons, ih]
    omega
  | _ => simp [leftover]

theorem fullGroups_length (l : List Bool) : (fullGroups l).length = l.length / 5 := by
  induction l using fullGroups.induct with
  | case1 a b c d e rest ih =>
    simp only [fullGroups, List.length_cons, ih]
    omega
  | _ => simp [fullGroups]

theorem fullGroups_append (l x : List Bool) :
    fullGroups (l ++ x) = fullGroups l ++ fullGroups (leftover l ++ x) := by
  induction l using fullGroups.induct with
  | case1 a b c d e rest ih => simp [fullGroups, leftover, ih]
  | _ => simp [fullGroups, leftover]

theorem leftover_append (l x : List Bool) :
    leftover (l ++ x) = leftover (leftover l ++ x) := by
  induction l using leftover.induct with
  | case1 a b c d e rest ih => simp [leftover, ih]
  | _ => simp [leftover]

theorem groupsOf5_padLow (l : List Bool) :
    groupsOf5 (padLow l) = fullGroups l ++
      (if leftover l = [] then []
       else [leftover l ++ List.replicate (5 - (leftover l).length) false]) := by
  induction l using fullGroups.induct with
  | case1 a b c d e rest ih =>
    have h : padLow (a :: b :: c :: d :: e :: rest) = a :: b :: c :: d :: e :: padLow rest := by
      simp only [padLow, List.length_cons, List.cons_append]
      have e5 : (5 - (rest.length + 1 + 1 + 1 + 1 + 1) % 5) % 5 = (5 - rest.length % 5) % 5 := by
        omega
      rw [e5]
    rw [h]
    simp [groupsOf5, fullGroups, leftover, ih]
  | _ => simp [groupsOf5, fullGroups, leftover, padLow, List.replicate]

theorem split_top5 (buffer n v5 vr : Nat) (hr : vr < 2 ^ n)
    (h : buffer % 2 ^ (n + 5) = v5 * 2 ^ n + vr) :
    (buffer >>> n) &&& 0x1F = v5 ∧ buffer % 2 ^ n = vr := by
  have hpos : 0 < 2 ^ n := Nat.two_pow_pos n
  have e : (2 : Nat) ^ (n + 5) = 2 ^ n * 32 := by rw [pow_add]; norm_num
  rw [e] at h
  constructor
  · have h1 : (buffer >>> n) &&& 0x1F = buffer / 2 ^ n % 2 ^ 5 := by
      rw [Nat.shiftRight_eq_div_pow]
      exact Nat.and_pow_two_sub_one_eq_mod _ 5
    rw [h1]
    have h2 : buffer / 2 ^ n % 2 ^ 5 = buffer % (2 ^ n * 32) / 2 ^ n :=
      (Nat.mod_mul_right_div_self buffer (2 ^ n) 32).symm
    rw [h2, h, Nat.mul_comm v5, Nat.mul_add_div hpos, Nat.div_eq_of_lt hr]
    rfl
  · have h3 := Nat.mod_mul_right_mod buffer (2 ^ n) 32
    rw [h, Nat.mul_comm v5, Nat.mul_add_mod, Nat.mod_eq_of_lt hr] at h3
    exact h3.symm

theorem emitGroups_spec (fuel : Nat) : ∀ (p : List Bool) (buffer : Nat) (out : Str),
    p.length ≤ fuel → buffer % 2 ^ p.length = groupValue p →
    emitGroups fuel buffer p.length out
        = ((leftover p).length, out ++ (fullGroups p).map (fun g => alphabetAt (groupValue g)))
      ∧ buffer % 2 ^ (leftover p).length = groupValue (leftover p) := by
  induction fuel with
  | zero =>
    intro p buffer out hp hb
    have : p = [] := List.length_eq_zero.mp (by omega)
    subst this
    simp [emitGroups, leftover, fullGroups, groupValue, Nat.mod_one]
  | succ fuel ih =>
    intro p buffer out hp hb
    rcases p with _ | ⟨a, _ | ⟨b, _ | ⟨c, _ | ⟨d, _ | ⟨e, rest⟩⟩⟩⟩⟩
    · simp [emitGroups, leftover, fullGroups, groupValue, Nat.mod_one]
    · exact ⟨by simp [emitGroups, leftover, fullGroups], hb⟩
    · exact ⟨by simp [emitGroups, leftover, fullGroups], hb⟩
    · exact ⟨by simp [emitGroups, leftover, fullGroups], hb⟩
    · exact ⟨by simp [emitGroups, leftover, fullGroups], hb⟩
    · have hsplit : a :: b :: c :: d :: e :: rest = [a, b, c, d, e] ++ rest := rfl
      have hlen : (a :: b :: c :: d :: e :: rest).length = rest.length + 5 := by simp
      have hv := groupValue_append [a, b, c, d, e] rest
      rw [hlen, hsplit, hv] at hb
      obtain ⟨hidx, hrest⟩ := split_top5 buffer rest.length _ _ (groupValue_lt rest) hb
      have hle : rest.length ≤ fuel := by simp at hp; omega
      obtain ⟨ih1, ih2⟩ := ih rest buffer (out ++ [alphabetAt (groupValue [a, b, c, d, e])]) hle hrest
      refine ⟨?_, by simpa [leftover] using ih2⟩
      rw [hlen]
      simp only [emitGroups, Nat.le_add_left, ↓reduceIte, Nat.add_sub_cancel, hidx, ih1,
        leftover, fullGroups, List.map_cons, List.append_assoc, List.singleton_append]

/-- The inner loop leaves fewer than 5 bits whenever it is given as many
iterations as there are bits. -/
theorem emitGroups_exit (fuel : Nat) : ∀ (buffer bits_left : Nat) (out : Str),
    bits_left ≤ fuel → (emitGroups fuel buffer bits_left out).1 < 5 := by
  induction fuel with
  | zero => intro buffer bits_left out h; simp [emitGroups]; omega
  | succ fuel ih =>
    intro buffer bits_left out h
    unfold emitGroups
    split
    · exact ih _ _ _ (by omega)
    · simp; omega

theorem push_byte (buffer k : Nat) (d : Byte) (hk : k < 5) :
    ((buffer <<< 8) ||| d.val) % 2 ^ 32 % 2 ^ (k + 8) = buffer % 2 ^ k * 2 ^ 8 + d.val := by
  have hd : d.val < 2 ^ 8 := d.isLt
  have e1 : (buffer <<< 8) ||| d.val = 2 ^ 8 * buffer + d.val := by
    rw [Nat.shiftLeft_eq, Nat.mul_comm]
    exact (Nat.mul_add_lt_is_or hd buffer).symm
  rw [e1, Nat.mod_mod_of_dvd _ (pow_dvd_pow 2 (by omega))]
  interval_cases k <;> simp only [Nat.reducePow, Nat.reduceAdd] at hd ⊢ <;> omega

theorem encodeLoop_spec (data : List Byte) : ∀ (p : List Bool) (buffer : Nat) (out : Str),
    p.length < 5 → buffer % 2 ^ p.length = groupValue p →
    ∃ b', encodeLoop data buffer p.length out
        = (b', (leftover (p ++ bitString data)).length,
            out ++ (fullGroups (p ++ bitString data)).map (fun g => alphabetAt (groupValue g)))
      ∧ b' % 2 ^ (leftover (p ++ bitString data)).length
          = groupValue (leftover (p ++ bitString data)) := by
  induction data with
  | nil =>
    intro p buffer out hp hb
    have hl : leftover p = p := by
      rcases p with _ | ⟨a, _ | ⟨b, _ | ⟨c, _ | ⟨d, _ | ⟨e, rest⟩⟩⟩⟩⟩ <;> simp [leftover] at hp ⊢
      omega
    have hf : fullGroups p = [] := by
      rcases p with _ | ⟨a, _ | ⟨b, _ | ⟨c, _ | ⟨d, _ | ⟨e, rest⟩⟩⟩⟩⟩ <;> simp [fullGroups] at hp ⊢
      omega
    exact ⟨buffer, by simp [encodeLoop, bitString, hl, hf], by simpa [bitString, hl] using hb⟩
  | cons d rest ih =>
    intro p buffer out hp hb
    have hb1 : ((buffer <<< 8) ||| d.val) % 2 ^ 32 % 2 ^ (p ++ bitsOfByte d).length
        = groupValue (p ++ bitsOfByte d) := by
      rw [groupValue_append, groupValue_bitsOfByte, List.length_append, bitsOfByte_length,
        push_byte buffer p.length d hp, hb]
    have hlen : (p ++ bitsOfByte d).length = p.length + 8 := by
      rw [List.length_append, bitsOfByte_length]
    obtain ⟨e1, e2⟩ := emitGroups_spec (p.length + 8) (p ++ bitsOfByte d)
      (((buffer <<< 8) ||| d.val) % 2 ^ 32) out (by omega) hb1
    have hlt : (leftover (p ++ bitsOfByte d)).length < 5 := by
      rw [leftover_length]; omega
    obtain ⟨b', i1, i2⟩ := ih (leftover (p ++ bitsOfByte d)) (((buffer <<< 8) ||| d.val) % 2 ^ 32)
      (out ++ (fullGroups (p ++ bitsOfByte d)).map (fun g => alphabetAt (groupValue g))) hlt e2
    have hbits : p ++ bitString (d :: rest) = (p ++ bitsOfByte d) ++ bitString rest := by
      simp [bitString]
    refine ⟨b', ?_, ?_⟩
    · rw [hlen] at e1
      simp only [encodeLoop, e1, i1, hbits]
      rw [fullGroups_append (p ++ bitsOfByte d), leftover_append (p ++ bitsOfByte d)]
      simp
    · rw [hbits, leftover_append (p ++ bitsOfByte d)]
      exact i2

theorem final_group (buffer : Nat) (p : List Bool) (hp : p.length < 5) (h0 : 0 < p.length)
    (hb : buffer % 2 ^ p.length = groupValue p) :
    ((buffer <<< (5 - p.length)) % 2 ^ 32) &&& 0x1F
      = groupValue (p ++ List.replicate (5 - p.length) false) := by
  have hz : ∀ n, groupValue (List.replicate n false) = 0 := by
    intro n
    induction n with
    | zero => rfl
    | succ n ih =>
      have : List.replicate (n + 1) false = [false] ++ List.replicate n false := rfl
      rw [this, groupValue_append, ih]; simp [groupValue]
  rw [groupValue_append, hz, List.length_replicate, ← hb, Nat.shiftLeft_eq]
  have h1 : ∀ x, x &&& 0x1F = x % 2 ^ 5 := fun x => Nat.and_pow_two_sub_one_eq_mod x 5
  rw [h1, Nat.mod_mod_of_dvd _ (pow_dvd_pow 2 (by omega))]
  generalize p.length = k at hp h0 ⊢
  interval_cases k <;> simp only [Nat.reducePow, Nat.reduceSub] <;> omega

theorem base32_eq_reference (data : List Byte) :
    base32_encode_no_pad data = rfc4648_base32 data := by
  obtain ⟨b', h1, h2⟩ := encodeLoop_spec data [] 0 [] (by simp) (by simp [groupValue])
  simp only [List.length_nil, List.nil_append] at h1 h2
  have hlt : (leftover (bitString data)).length < 5 := by rw [leftover_length]; omega
  unfold base32_encode_no_pad rfc4648_base32
  rw [h1, groupsOf5_padLow]
  by_cases hz : leftover (bitString data) = []
  · simp [hz]
  · have hpos : 0 < (leftover (bitString data)).length := List.length_pos.mpr hz
    simp only [hpos, ↓reduceIte, hz, List.map_append, List.map_cons, List.map_nil,
      final_group b' _ hlt hpos h2, List.nil_append]


theorem bitString_length (data : List Byte) : (bitString data).length = 8 * data.length := by
  induction data with
  | nil => rfl
  | cons d rest ih =>
    have h : bitString (d :: rest) = bitsOfByte d ++ bitString rest := by simp [bitString]
    rw [h, List.length_append, bitsOfByte_length, ih, List.length_cons]
    omega

theorem reference_length (data : List Byte) :
    (rfc4648_base32 data).length = (8 * data.length + 4) / 5 := by
  unfold rfc4648_base32
  rw [List.length_map, groupsOf5_padLow, List.length_append, fullGroups_length]
  have hl := leftover_length (bitString data)
  rw [bitString_length] at hl ⊢
  by_cases hz : leftover (bitString data) = []
  · rw [hz] at hl
    simp only [hz, ↓reduceIte, List.length_nil] at hl ⊢
    omega
  · have hpos : 0 < (leftover (bitString data)).length := List.length_pos.mpr hz
    simp only [hz, ↓reduceIte, List.length_singleton]
    omega

theorem alphabetAt_symbol (x : Nat) : isBase32Symbol (alphabetAt (x &&& 0x1F)) := by
  have h1 : x &&& 0x1F = x % 2 ^ 5 := Nat.and_pow_two_sub_one_eq_mod x 5
  have h2 : x % 2 ^ 5 < 32 := Nat.mod_lt _ (by norm_num)
  have h3 : ∀ i, i < 32 → isBase32Symbol (alphabetAt i) := by
    unfold isBase32Symbol
    decide
  rw [h1]
  exact h3 _ h2

theorem emitGroups_symbols (fuel : Nat) : ∀ (buffer bits_left : Nat) (out : Str),
    (∀ ch ∈ out, isBase32Symbol ch) →
    ∀ ch ∈ (emitGroups fuel buffer bits_left out).2, isBase32Symbol ch := by
  induction fuel with
  | zero => intro buffer bits_left out h; simpa [emitGroups] using h
  | succ fuel ih =>
    intro buffer bits_left out h
    unfold emitGroups
    split
    · apply ih
      intro ch hch
      rcases List.mem_append.mp hch with h1 | h1
      · exact h ch h1
      · rw [List.mem_singleton] at h1
        rw [h1]
        exact alphabetAt_symbol _
    · exact h

theorem encodeLoop_symbols (data : List Byte) : ∀ (buffer bits_left : Nat) (out : Str),
    (∀ ch ∈ out, isBase32Symbol ch) →
    ∀ ch ∈ (encodeLoop data buffer bits_left out).2.2, isBase32Symbol ch := by
  induction data with
  | nil => intro buffer bits_left out h; simpa [encodeLoop] using h
  | cons d rest ih =>
    intro buffer bits_left out h
    simp only [encodeLoop]
    exact ih _ _ _ (emitGroups_symbols _ _ _ _ h)

theorem base32_symbols (data : List Byte) :
    ∀ ch ∈ base32_encode_no_pad data, isBase32Symbol ch := by
  have h := encodeLoop_symbols data 0 0 [] (by simp)
  unfold base32_encode_no_pad
  simp only
  split
  · intro ch hch
    rcases List.mem_append.mp hch with h1 | h1
    · exact h ch h1
    · rw [List.mem_singleton] at h1
      rw [h1]
      exact alphabetAt_symbol _
  · exact h

theorem base32_length (data : List Byte) :
    (base32_encode_no_pad data).length = (8 * data.length + 4) / 5 := by
  rw [base32_eq_reference, reference_length]

/-- C2: for every byte sequence, `base32_encode_no_pad` (32-bit buffer, reduced
modulo `2 ^ 32` at each assignment) equals the unpadded RFC 4648 base-32
encoding as the specification words it; its output has `ceil(8n/5)` characters,
none of them the padding character `=`; 32 zero bytes give 52 times `A`. -/
theorem base32_encode_no_pad_is_rfc4648 (data : List Byte) :
    base32_encode_no_pad data = rfc4648_base32 data
    ∧ (base32_encode_no_pad data).length = (8 * data.length + 4) / 5
    ∧ '=' ∉ base32_encode_no_pad data
    ∧ base32_encode_no_pad (List.replicate 32 0) = List.replicate 52 'A' := by
  refine ⟨base32_eq_reference data, ?_, ?_, by decide⟩
  · exact base32_length data
  · intro h
    have := base32_symbols data _ h
    revert this
    unfold isBase32Symbol
    decide

/-- C1: whatever bytes the keyed digest returns (of any length, also none),
`pepper_tag4` returns exactly 4 characters, each one of the 32 symbols `A`-`Z`,
`2`-`7`, which are the entries of the encoder's table. -/
theorem pepper_tag4_four_symbols (hmac : Str → Str → List Byte) (base_password pepper : Str) :
    (pepper_tag4 hmac base_password pepper).length = 4
    ∧ (∀ ch ∈ pepper_tag4 hmac base_password pepper, isBase32Symbol ch ∧ ch ∈ alphabet)
    ∧ alphabet.length = 32 ∧ alphabet.Nodup := by
  have hmem : ∀ ch, isBase32Symbol ch → ch ∈ alphabet := by
    intro ch h
    have hc : ch = Char.ofNat ch.toNat := by simp
    unfold isBase32Symbol at h
    rw [hc]
    generalize ch.toNat = k at h
    rcases h with ⟨h1, h2⟩ | ⟨h1, h2⟩ <;> interval_cases k <;> decide
  refine ⟨?_, ?_, by decide, by decide⟩
  · unfold pepper_tag4
    simp only
    split
    · rfl
    · rw [List.length_take]; omega
  · intro ch hch
    have hs : isBase32Symbol ch := by
      unfold pepper_tag4 at hch
      simp only at hch
      split at hch
      · revert ch
        unfold isBase32Symbol
        decide
      · exact base32_symbols _ ch (List.mem_of_mem_take hch)
    exact ⟨hs, hmem ch hs⟩

/-! ## The tag is a prefix of the encoding -/

theorem tag_of_three_bytes (d0 d1 d2 : Byte) (rest : List Byte) :
    (base32_encode_no_pad (d0 :: d1 :: d2 :: rest)).take 4
      = (groupsOf5 ((bitString (d0 :: d1 :: d2 :: rest)).take 20)).map
          (fun g => alphabetAt (groupValue g)) := by
  rw [base32_eq_reference]
  unfold rfc4648_base32
  rw [groupsOf5_padLow]
  simp [bitString, bitsOfByte, fullGroups, groupsOf5]

/-- C3: `pepper_tag4` returns the first 4 characters of the encoding of the
digest when the encoding has at least 4 characters, and the fallback `AAAA`
when it is shorter, which happens exactly for a digest of fewer than 2 bytes; a
32-byte digest has a 52-character encoding, so the tag is its 4-character
prefix, and that prefix is the encoding of the first 20 bits of the digest. -/
theorem pepper_tag4_take4_or_fallback (hmac : Str → Str → List Byte)
    (base_password pepper : Str) :
    (4 ≤ (base32_encode_no_pad (hmac pepper base_password)).length →
      pepper_tag4 hmac base_password pepper
        = (base32_encode_no_pad (hmac pepper base_password)).take 4)
    ∧ ((base32_encode_no_pad (hmac pepper base_password)).length < 4 →
      pepper_tag4 hmac base_password pepper = "AAAA".toList)
    ∧ ((base32_encode_no_pad (hmac pepper base_password)).length < 4
        ↔ (hmac pepper base_password).length < 2)
    ∧ ((hmac pepper base_password).length = 32 →
      (base32_encode_no_pad (hmac pepper base_password)).length = 52
      ∧ pepper_tag4 hmac base_password pepper
          = (base32_encode_no_pad (hmac pepper base_password)).take 4
      ∧ pepper_tag4 hmac base_password pepper
          = (groupsOf5 ((bitString (hmac pepper base_password)).take 20)).map
              (fun g => alphabetAt (groupValue g))) := by
  have hlen := (base32_length (hmac pepper base_password))
  refine ⟨?_, ?_, ?_, ?_⟩
  · intro h
    unfold pepper_tag4
    simp only
    rw [if_neg (by omega)]
  · intro h
    unfold pepper_tag4
    simp only
    rw [if_pos h]
  · rw [hlen]
    omega
  · intro h32
    have h52 : (base32_encode_no_pad (hmac pepper base_password)).length = 52 := by
      rw [hlen, h32]
    have htag : pepper_tag4 hmac base_password pepper
        = (base32_encode_no_pad (hmac pepper base_password)).take 4 := by
      unfold pepper_tag4
      simp only
      rw [if_neg (by omega)]
    refine ⟨h52, htag, ?_⟩
    rw [htag]
    generalize hmac pepper base_password = digest at h32
    rcases digest with _ | ⟨d0, _ | ⟨d1, _ | ⟨d2, rest⟩⟩⟩
    · simp at h32
    · simp at h32
    · simp at h32
    · exact tag_of_three_bytes d0 d1 d2 rest

/-- C3 at a digest of 32 zero bytes (the prefix branch) and at an empty digest
(the fallback branch). -/
theorem pepper_tag4_take4_or_fallback_witness :
    ((base32_encode_no_pad (List.replicate 32 0)).length = 52
      ∧ pepper_tag4 (fun _ _ => List.replicate 32 0) "a-b-0000".toList "k".toList
          = (base32_encode_no_pad (List.replicate 32 0)).take 4
      ∧ pepper_tag4 (fun _ _ => List.replicate 32 0) "a-b-0000".toList "k".toList
          = (groupsOf5 ((bitString (List.replicate 32 0)).take 20)).map
              (fun g => alphabetAt (groupValue g)))
    ∧ pepper_tag4 (fun _ _ => []) "a-b-0000".toList "k".toList = "AAAA".toList :=
  ⟨(pepper_tag4_take4_or_fallback (fun _ _ => List.replicate 32 0)
      "a-b-0000".toList "k".toList).2.2.2 (by decide),
   (pepper_tag4_take4_or_fallback (fun _ _ => []) "a-b-0000".toList "k".toList).2.1
      (by decide)⟩

/-! ## Selection, joining, the four-digit field, capitalization -/

theorem select_sublist : ∀ (words : List Str) (mask : List Bool),
    (select words mask).Sublist words
  | [], _ => by simp [select]
  | _ :: _, [] => by simp [select]
  | w :: ws, true :: m => by
    simp only [select]
    exact (select_sublist ws m).cons₂ w
  | w :: ws, false :: m => by
    simp only [select]
    exact (select_sublist ws m).cons w

theorem select_length : ∀ (words : List Str) (mask : List Bool),
    mask.length = words.length → (select words mask).length = mask.count true
  | [], [] => by simp [select]
  | [], _ :: _ => by simp
  | _ :: _, [] => by simp
  | w :: ws, true :: m => by
    intro h
    simp only [List.length_cons, Nat.add_right_cancel_iff] at h
    simp [select, select_length ws m h]
  | w :: ws, false :: m => by
    intro h
    simp only [List.length_cons, Nat.add_right_cancel_iff] at h
    simp [select, select_length ws m h]

theorem intercalate_cons (sep x : Str) (xs : List Str) :
    sep.intercalate (x :: xs) = x ++ xs.flatMap (fun s => sep ++ s) := by
  induction xs generalizing x with
  | nil => simp [List.intercalate, List.intersperse]
  | cons y ys ih =>
    have h := ih y
    simp only [List.intercalate] at h ⊢
    rw [List.intersperse_cons_cons]
    simp only [List.flatten_cons, h, List.flatMap_cons, List.append_assoc]

theorem joinWords_later (pick : List Str) : ∀ (k w : Nat) (oss : Str),
    0 < w → w + k ≤ pick.length →
    joinWords pick k w oss
      = oss ++ ((pick.drop w).take k).flatMap (fun s => "-".toList ++ s)
  | 0, _, oss => by intro _ _; simp [joinWords]
  | k + 1, w, oss => by
    intro hw hlen
    have hlt : w < pick.length := by omega
    rw [joinWords, if_pos hw, joinWords_later pick k (w + 1) _ (by omega) (by omega),
      List.drop_eq_getElem_cons hlt, List.getD_eq_getElem pick [] hlt]
    simp only [List.take_succ_cons, List.flatMap_cons, List.append_assoc]

theorem joinWords_eq_intercalate (pick : List Str) :
    joinWords pick pick.length 0 [] = "-".toList.intercalate pick := by
  rcases pick with _ | ⟨x, xs⟩
  · rfl
  · rw [intercalate_cons, List.length_cons, joinWords, if_neg (by omega),
      joinWords_later (x :: xs) xs.length 1 _ (by omega) (by simp; omega)]
    simp

theorem toDigitsCore_step (f n : Nat) (ds : List Char) :
    Nat.toDigitsCore 10 (f + 1) n ds
      = if n / 10 = 0 then Nat.digitChar (n % 10) :: ds
        else Nat.toDigitsCore 10 f (n / 10) (Nat.digitChar (n % 10) :: ds) := rfl

theorem fourDigitField_eq (n : Nat) (h : n ≤ 9999) :
    fourDigitField n
      = [Nat.digitChar (n / 1000), Nat.digitChar (n / 100 % 10),
         Nat.digitChar (n / 10 % 10), Nat.digitChar (n % 10)] := by
  unfold fourDigitField Nat.toDigits
  by_cases h1 : n < 10
  · rw [toDigitsCore_step, if_pos (by omega)]
    have e1 : n / 1000 = 0 := by omega
    have e2 : n / 100 % 10 = 0 := by omega
    have e3 : n / 10 % 10 = 0 := by omega
    rw [e1, e2, e3]
    rfl
  · by_cases h2 : n < 100
    · obtain ⟨f, hf⟩ : ∃ f, n + 1 = f + 2 := ⟨n - 1, by omega⟩
      rw [hf, toDigitsCore_step, if_neg (by omega), toDigitsCore_step, if_pos (by omega)]
      have e1 : n / 1000 = 0 := by omega
      have e2 : n / 100 % 10 = 0 := by omega
      rw [e1, e2]
      rfl
    · by_cases h3 : n < 1000
      · obtain ⟨f, hf⟩ : ∃ f, n + 1 = f + 3 := ⟨n - 2, by omega⟩
        rw [hf, toDigitsCore_step, if_neg (by omega), toDigitsCore_step, if_neg (by omega),
          toDigitsCore_step, if_pos (by omega)]
        have e1 : n / 1000 = 0 := by omega
        have e2 : n / 10 / 10 % 10 = n / 100 % 10 := by omega
        rw [e1, e2]
        rfl
      · obtain ⟨f, hf⟩ : ∃ f, n + 1 = f + 4 := ⟨n - 3, by omega⟩
        rw [hf, toDigitsCore_step, if_neg (by omega), toDigitsCore_step, if_neg (by omega),
          toDigitsCore_step, if_neg (by omega), toDigitsCore_step, if_pos (by omega)]
        have e1 : n / 10 / 10 / 10 % 10 = n / 1000 := by omega
        have e2 : n / 10 / 10 % 10 = n / 100 % 10 := by omega
        rw [e1, e2]
        rfl

theorem digitChar_value : ∀ k, k < 10 →
    (Nat.digitChar k).isDigit = true ∧ (Nat.digitChar k).toNat - 48 = k := by
  decide

theorem fourDigitField_value (n : Nat) (h : n ≤ 9999) :
    (fourDigitField n).length = 4
    ∧ (∀ ch ∈ fourDigitField n, ch.isDigit = true)
    ∧ decimalValue (fourDigitField n) = n := by
  rw [fourDigitField_eq n h]
  have a := digitChar_value (n / 1000) (by omega)
  have b := digitChar_value (n / 100 % 10) (by omega)
  have c := digitChar_value (n / 10 % 10) (by omega)
  have d := digitChar_value (n % 10) (by omega)
  refine ⟨rfl, ?_, ?_⟩
  · intro ch hch
    simp only [List.mem_cons, List.mem_singleton, List.not_mem_nil, or_false] at hch
    rcases hch with e | e | e | e <;> rw [e]
    · exact a.1
    · exact b.1
    · exact c.1
    · exact d.1
  · simp only [decimalValue, List.foldl_cons, List.foldl_nil, a.2, b.2, c.2, d.2]
    omega

theorem toupper_idem (ch : Char) : toupper (toupper ch) = toupper ch := by
  unfold toupper
  by_cases h : 97 ≤ ch.toNat ∧ ch.toNat ≤ 122
  · rw [if_pos h]
    have hc : ch = Char.ofNat ch.toNat := by simp
    have hn : ¬ (97 ≤ (Char.ofNat (ch.toNat - 32)).toNat
        ∧ (Char.ofNat (ch.toNat - 32)).toNat ≤ 122) := by
      generalize ch.toNat = k at h
      obtain ⟨h1, h2⟩ := h
      interval_cases k <;> decide
    rw [if_neg hn]
  · rw [if_neg h, if_neg h]

theorem capitalize_first_length (s : Str) : (capitalize_first s).length = s.length := by
  cases s <;> rfl

theorem capitalize_first_idem (s : Str) :
    capitalize_first (capitalize_first s) = capitalize_first s := by
  cases s with
  | nil => rfl
  | cons ch rest => simp [capitalize_first, toupper_idem]

theorem passwordBase_eq (c : Config) (pick : List Str) (num : Nat)
    (hM : c.words_per_password.toNat = pick.length) :
    passwordBase c pick num
      = "-".toList.intercalate (if c.do_cap then pick.map capitalize_first else pick)
          ++ "-".toList ++ fourDigitField num := by
  unfold passwordBase
  simp only
  have hl : (if c.do_cap then pick.map capitalize_first else pick).length = pick.length := by
    split <;> simp
  rw [hM, ← hl, joinWords_eq_intercalate]

/-! ## The flag loop -/

theorem parseFlags_h (c : Config) (rest : List Str) :
    parseFlags c ("-h".toList :: rest) = .help := by
  unfold parseFlags
  rw [if_pos (Or.inl rfl)]

theorem parseFlags_help (c : Config) (rest : List Str) :
    parseFlags c ("--help".toList :: rest) = .help := by
  unfold parseFlags
  rw [if_pos (Or.inr rfl)]

theorem parseFlags_count (c : Config) (v : Str) (rest : List Str) :
    parseFlags c ("--count".toList :: v :: rest)
      = match stoi v with
        | .ok n => parseFlags { c with count := max 1 n } rest
        | .error e => .throws e := rfl

theorem parseFlags_words (c : Config) (v : Str) (rest : List Str) :
    parseFlags c ("--words".toList :: v :: rest)
      = match stoi v with
        | .ok n => parseFlags { c with words_per_password := max 1 n } rest
        | .error e => .throws e := rfl

theorem parseFlags_log (c : Config) (v : Str) (rest : List Str) :
    parseFlags c ("--log".toList :: v :: rest) = parseFlags { c with logfile := v } rest := rfl

theorem parseFlags_wordspath (c : Config) (v : Str) (rest : List Str) :
    parseFlags c ("--wordspath".toList :: v :: rest)
      = parseFlags { c with wordspath := v } rest := rfl

theorem parseFlags_env (c : Config) (v : Str) (rest : List Str) :
    parseFlags c ("--env".toList :: v :: rest) = parseFlags { c with envfile := v } rest := rfl

theorem parseFlags_capitalize (c : Config) (rest : List Str) :
    parseFlags c ("--capitalize".toList :: rest) = parseFlags { c with do_cap := true } rest := by
  cases rest <;> rfl

theorem parseFlags_no_capitalize (c : Config) (rest : List Str) :
    parseFlags c ("--no-capitalize".toList :: rest)
      = parseFlags { c with do_cap := false } rest := by
  cases rest <;> rfl

theorem parseFlags_pepper (c : Config) (rest : List Str) :
    parseFlags c ("--pepper".toList :: rest) = parseFlags { c with use_pepper := true } rest := by
  cases rest <;> rfl

theorem parseFlags_value_missing (c : Config) (arg : Str)
    (h : arg ∈ ["--count".toList, "--words".toList, "--log".toList, "--wordspath".toList,
      "--env".toList]) :
    parseFlags c [arg] = .unknown arg := by
  simp only [List.mem_cons, List.mem_singleton, List.not_mem_nil, or_false] at h
  rcases h with h | h | h | h | h <;> subst h <;> rfl

theorem parseFlags_unknown (c : Config) (arg : Str) (rest : List Str)
    (h : arg ∉ knownFlags) : parseFlags c (arg :: rest) = .unknown arg := by
  simp only [knownFlags, List.mem_cons, List.mem_singleton, List.not_mem_nil, or_false,
    not_or] at h
  obtain ⟨h1, h2, h3, h4, h5, h6, h7, h8, h9, h10⟩ := h
  cases rest with
  | nil =>
    unfold parseFlags
    rw [if_neg (by rintro (h | h) <;> contradiction)]
    simp only [if_neg h6, if_neg h7, if_neg h9]
  | cons v rest' =>
    unfold parseFlags
    rw [if_neg (by rintro (h | h) <;> contradiction)]
    simp only [if_neg h3, if_neg h4, if_neg h5, if_neg h6, if_neg h7, if_neg h8, if_neg h9,
      if_neg h10]

theorem parseFlags_append (rest : List Str) : ∀ (n : Nat) (pre : List Str) (c c1 : Config),
    pre.length ≤ n → parseFlags c pre = .ok c1 →
    parseFlags c (pre ++ rest) = parseFlags c1 rest := by
  intro n
  induction n with
  | zero =>
    intro pre c c1 hn h
    have hnil : pre = [] := List.length_eq_zero.mp (by omega)
    subst hnil
    simp only [parseFlags, Parsed.ok.injEq] at h
    subst h
    rfl
  | succ n ih =>
    intro pre c c1 hn h
    rcases pre with _ | ⟨arg, t⟩
    · simp only [parseFlags, Parsed.ok.injEq] at h
      subst h
      rfl
    · have ht : t.length ≤ n := by simp at hn; omega
      by_cases hk : arg ∈ knownFlags
      · simp only [knownFlags, List.mem_cons, List.mem_singleton, List.not_mem_nil,
          or_false] at hk
        rcases hk with e | e | e | e | e | e | e | e | e | e <;> subst e
        · rw [parseFlags_h] at h; exact absurd h (by simp)
        · rw [parseFlags_help] at h; exact absurd h (by simp)
        · rcases t with _ | ⟨v, t'⟩
          · rw [parseFlags_value_missing _ _ (by simp)] at h; exact absurd h (by simp)
          · have ht' : t'.length ≤ n := by simp at ht; omega
            rw [List.cons_append, List.cons_append, parseFlags_count]
            rw [parseFlags_count] at h
            cases hs : stoi v with
            | error e => rw [hs] at h; exact absurd h (by simp)
            | ok k => rw [hs] at h; exact ih t' _ _ ht' h
        · rcases t with _ | ⟨v, t'⟩
          · rw [parseFlags_value_missing _ _ (by simp)] at h; exact absurd h (by simp)
          · have ht' : t'.length ≤ n := by simp at ht; omega
            rw [List.cons_append, List.cons_append, parseFlags_words]
            rw [parseFlags_words] at h
            cases hs : stoi v with
            | error e => rw [hs] at h; exact absurd h (by simp)
            | ok k => rw [hs] at h; exact ih t' _ _ ht' h
        · rcases t with _ | ⟨v, t'⟩
          · rw [parseFlags_value_missing _ _ (by simp)] at h; exact absurd h (by simp)
          · have ht' : t'.length ≤ n := by simp at ht; omega
            rw [List.cons_append, List.cons_append, parseFlags_log]
            rw [parseFlags_log] at h
            exact ih t' _ _ ht' h
        · rw [List.cons_append, parseFlags_capitalize]
          rw [parseFlags_capitalize] at h
          exact ih t _ _ ht h
        · rw [List.cons_append, parseFlags_no_capitalize]
          rw [parseFlags_no_capitalize] at h
          exact ih t _ _ ht h
        · rcases t with _ | ⟨v, t'⟩
          · rw [parseFlags_value_missing _ _ (by simp)] at h; exact absurd h (by simp)
          · have ht' : t'.length ≤ n := by simp at ht; omega
            rw [List.cons_append, List.cons_append, parseFlags_wordspath]
            rw [parseFlags_wordspath] at h
            exact ih t' _ _ ht' h
        · rw [List.cons_append, parseFlags_pepper]
          rw [parseFlags_pepper] at h
          exact ih t _ _ ht h
        · rcases t with _ | ⟨v, t'⟩
          · rw [parseFlags_value_missing _ _ (by simp)] at h; exact absurd h (by simp)
          · have ht' : t'.length ≤ n := by simp at ht; omega
            rw [List.cons_append, List.cons_append, parseFlags_env]
            rw [parseFlags_env] at h
            exact ih t' _ _ ht' h
      · rw [parseFlags_unknown c arg t hk] at h
        exact absurd h (by simp)

theorem parseFlags_invariant (I : Config → Prop)
    (hcount : ∀ (c : Config) (k : Int), I c → I { c with count := max 1 k })
    (hwords : ∀ (c : Config) (k : Int), I c → I { c with words_per_password := max 1 k })
    (hlog : ∀ (c : Config) (v : Str), I c → I { c with logfile := v })
    (hcap : ∀ (c : Config) (b : Bool), I c → I { c with do_cap := b })
    (hpath : ∀ (c : Config) (v : Str), I c → I { c with wordspath := v })
    (hpep : ∀ (c : Config), I c → I { c with use_pepper := true })
    (henv : ∀ (c : Config) (v : Str), I c → I { c with envfile := v }) :
    ∀ (n : Nat) (l : List Str) (c c1 : Config),
      l.length ≤ n → I c → parseFlags c l = .ok c1 → I c1 := by
  intro n
  induction n with
  | zero =>
    intro l c c1 hn hI h
    have hnil : l = [] := List.length_eq_zero.mp (by omega)
    subst hnil
    simp only [parseFlags, Parsed.ok.injEq] at h
    subst h
    exact hI
  | succ n ih =>
    intro l c c1 hn hI h
    rcases l with _ | ⟨arg, t⟩
    · simp only [parseFlags, Parsed.ok.injEq] at h
      subst h
      exact hI
    · have ht : t.length ≤ n := by simp at hn; omega
      by_cases hk : arg ∈ knownFlags
      · simp only [knownFlags, List.mem_cons, List.mem_singleton, List.not_mem_nil,
          or_false] at hk
        rcases hk with e | e | e | e | e | e | e | e | e | e <;> subst e
        · rw [parseFlags_h] at h; exact absurd h (by simp)
        · rw [parseFlags_help] at h; exact absurd h (by simp)
        · rcases t with _ | ⟨v, t'⟩
          · rw [parseFlags_value_missing _ _ (by simp)] at h; exact absurd h (by simp)
          · have ht' : t'.length ≤ n := by simp at ht; omega
            rw [parseFlags_count] at h
            cases hs : stoi v with
            | error e => rw [hs] at h; exact absurd h (by simp)
            | ok k => rw [hs] at h; exact ih t' _ _ ht' (hcount c k hI) h
        · rcases t with _ | ⟨v, t'⟩
          · rw [parseFlags_value_missing _ _ (by simp)] at h; exact absurd h (by simp)
          · have ht' : t'.length ≤ n := by simp at ht; omega
            rw [parseFlags_words] at h
            cases hs : stoi v with
            | error e => rw [hs] at h; exact absurd h (by simp)
            | ok k => rw [hs] at h; exact ih t' _ _ ht' (hwords c k hI) h
        · rcases t with _ | ⟨v, t'⟩
          · rw [parseFlags_value_missing _ _ (by simp)] at h; exact absurd h (by simp)
          · have ht' : t'.length ≤ n := by simp at ht; omega
            rw [parseFlags_log] at h
            exact ih t' _ _ ht' (hlog c v hI) h
        · rw [parseFlags_capitalize] at h
          exact ih t _ _ ht (hcap c true hI) h
        · rw [parseFlags_no_capitalize] at h
          exact ih t _ _ ht (hcap c false hI) h
        · rcases t with _ | ⟨v, t'⟩
          · rw [parseFlags_value_missing _ _ (by simp)] at h; exact absurd h (by simp)
          · have ht' : t'.length ≤ n := by simp at ht; omega
            rw [parseFlags_wordspath] at h
            exact ih t' _ _ ht' (hpath c v hI) h
        · rw [parseFlags_pepper] at h
          exact ih t _ _ ht (hpep c hI) h
        · rcases t with _ | ⟨v, t'⟩
          · rw [parseFlags_value_missing _ _ (by simp)] at h; exact absurd h (by simp)
          · have ht' : t'.length ≤ n := by simp at ht; omega
            rw [parseFlags_env] at h
            exact ih t' _ _ ht' (henv c v hI) h
      · rw [parseFlags_unknown c arg t hk] at h
        exact absurd h (by simp)

theorem parseFlags_keeps_pepper (l : List Str) (c c1 : Config)
    (h : parseFlags c l = .ok c1) (hp : c.use_pepper = true) : c1.use_pepper = true := by
  refine parseFlags_invariant (fun c => c.use_pepper = true) ?_ ?_ ?_ ?_ ?_ ?_ ?_
    l.length l c c1 (Nat.le_refl _) hp h
  · intro c0 k hI; exact hI
  · intro c0 k hI; exact hI
  · intro c0 v hI; exact hI
  · intro c0 b hI; exact hI
  · intro c0 v hI; exact hI
  · intro c0 hI; rfl
  · intro c0 v hI; exact hI

theorem parseFlags_at_least_one (l : List Str) (c c1 : Config)
    (h : parseFlags c l = .ok c1) (hp : 1 ≤ c.count ∧ 1 ≤ c.words_per_password) :
    1 ≤ c1.count ∧ 1 ≤ c1.words_per_password := by
  refine parseFlags_invariant (fun c => 1 ≤ c.count ∧ 1 ≤ c.words_per_password)
    ?_ ?_ ?_ ?_ ?_ ?_ ?_ l.length l c c1 (Nat.le_refl _) hp h
  · intro c0 k hI; exact ⟨le_max_left 1 k, hI.2⟩
  · intro c0 k hI; exact ⟨hI.1, le_max_left 1 k⟩
  · intro c0 v hI; exact hI
  · intro c0 b hI; exact hI
  · intro c0 v hI; exact hI
  · intro c0 hI; exact hI
  · intro c0 v hI; exact hI

theorem initialConfig_at_least_one (args : List Str) :
    1 ≤ (initialConfig args).count ∧ 1 ≤ (initialConfig args).words_per_password := by
  rcases args with _ | ⟨first, rest⟩
  · decide
  · simp only [initialConfig]
    by_cases hp : isPositional first = true
    · rw [if_pos hp]
      exact ⟨show (1 : Int) ≤ defaults.count by decide,
        show (1 : Int) ≤ defaults.words_per_password by decide⟩
    · rw [if_neg hp]; decide

theorem parseArgs_at_least_one (args : List Str) (c : Config) (h : parseArgs args = .ok c) :
    1 ≤ c.count ∧ 1 ≤ c.words_per_password :=
  parseFlags_at_least_one _ _ _ h (initialConfig_at_least_one args)

/-! ## The environment keeps what is set -/

theorem getenv_append (env extra : Env) (name : Str) (h : (getenv env name).isSome) :
    getenv (env ++ extra) name = getenv env name := by
  induction env with
  | nil => simp [getenv] at h
  | cons kv rest ih =>
    obtain ⟨k, v⟩ := kv
    simp only [List.cons_append, getenv] at h ⊢
    by_cases hk : k = name
    · rw [if_pos hk, if_pos hk]
    · rw [if_neg hk] at h
      rw [if_neg hk, if_neg hk]
      exact ih h

theorem getenv_set_env_if_missing (env : Env) (key val name : Str)
    (h : (getenv env name).isSome) :
    getenv (set_env_if_missing env key val) name = getenv env name := by
  unfold set_env_if_missing
  split
  · rfl
  · split
    · rfl
    · exact getenv_append env _ name h

theorem getenv_dotenvLine (env : Env) (line name : Str) (h : (getenv env name).isSome) :
    getenv (dotenvLine env line) name = getenv env name := by
  unfold dotenvLine
  simp only
  split
  · rfl
  · split
    · split
      · exact getenv_set_env_if_missing env _ _ name h
      · rfl
    · rfl

theorem getenv_foldl_dotenvLine (lines : List Str) : ∀ (env : Env) (name : Str),
    (getenv env name).isSome → getenv (lines.foldl dotenvLine env) name = getenv env name := by
  induction lines with
  | nil => intro env name _; rfl
  | cons l ls ih =>
    intro env name h
    have h1 := getenv_dotenvLine env l name h
    rw [List.foldl_cons, ih (dotenvLine env l) name (by rw [h1]; exact h), h1]

theorem getenv_load_dotenv (file : Str → Option Str) (path : Str) (env : Env) (name : Str)
    (h : (getenv env name).isSome) : getenv (load_dotenv file path env) name = getenv env name := by
  unfold load_dotenv
  split
  · rfl
  · exact getenv_foldl_dotenvLine _ env name h

theorem get_env_or_empty_load_dotenv (file : Str → Option Str) (path : Str) (env : Env)
    (name : Str) (h : get_env_or_empty env name ≠ []) :
    get_env_or_empty (load_dotenv file path env) name = get_env_or_empty env name := by
  have hs : (getenv env name).isSome := by
    unfold get_env_or_empty at h
    cases hg : getenv env name with
    | none => rw [hg] at h; exact absurd rfl h
    | some v => rfl
  unfold get_env_or_empty
  rw [getenv_load_dotenv file path env name hs]

/-! ## The generation loop -/

theorem generate_run (w : World) (c : Config) (words : List Str) :
    ∀ (k n : Nat) (env : Env) (out log : List Str),
      (∀ i, n ≤ i → i < n + k →
        c.words_per_password.toNat ≤ (select words (w.sample i)).length) →
      (c.use_pepper = true → get_env_or_empty env PASSGEN_PEPPER ≠ []) →
      generate w c words env k n out log
        = ⟨.exit 0,
           out ++ (List.range' n k).map
             (printedLine w c words (get_env_or_empty env PASSGEN_PEPPER)),
           [],
           if c.logfile ≠ [] then
             log ++ (List.range' n k).map
               (loggedLine w c words (get_env_or_empty env PASSGEN_PEPPER))
           else log⟩ := by
  intro k
  induction k with
  | zero =>
    intro n env out log _ _
    simp [generate]
  | succ k ih =>
    intro n env out log hsel hpep
    have h0 := hsel n (Nat.le_refl n) (by omega)
    have hrest : ∀ i, n + 1 ≤ i → i < n + 1 + k →
        c.words_per_password.toNat ≤ (select words (w.sample i)).length :=
      fun i h1 h2 => hsel i (by omega) (by omega)
    rw [generate, if_neg (by omega)]
    by_cases hu : c.use_pepper = true
    · have hne := hpep hu
      have hst := get_env_or_empty_load_dotenv w.file c.envfile env PASSGEN_PEPPER hne
      simp only [hu, ↓reduceIte, hst, if_neg hne]
      rw [ih (n + 1) _ _ _ hrest (by intro _; rw [hst]; exact hne), hst]
      by_cases hl : c.logfile ≠ []
      · simp [hl, List.range'_succ, printedLine, loggedLine, hu]
      · simp [hl, List.range'_succ, printedLine, hu]
    · have hf : c.use_pepper = false := by simpa using hu
      simp only [hf, Bool.false_eq_true, ↓reduceIte]
      rw [ih (n + 1) _ _ _ hrest (by intro h; rw [hf] at h; exact absurd h (by simp))]
      by_cases hl : c.logfile ≠ []
      · simp [hl, List.range'_succ, printedLine, loggedLine, hf]
      · simp [hl, List.range'_succ, printedLine, hf]

theorem main_run (w : World) (prog : Str) (args : List Str) (c : Config) (content : Str)
    (hparse : parseArgs args = .ok c)
    (hfile : w.file c.wordspath = some content)
    (hlog : c.logfile = [] ∨ w.logOpens c.logfile = true)
    (hpep : c.use_pepper = true → get_env_or_empty (envAfterLoad w c) PASSGEN_PEPPER ≠ [])
    (hsample : ∀ n, n < c.count.toNat →
      IsSampleOf (loadWords content).length c.words_per_password.toNat (w.sample n))
    (hM : c.words_per_password.toNat ≤ (loadWords content).length) :
    main w prog args
      = ⟨.exit 0,
         (List.range c.count.toNat).map
           (printedLine w c (loadWords content)
             (get_env_or_empty (envAfterLoad w c) PASSGEN_PEPPER)),
         [],
         if c.logfile ≠ [] then
           (List.range c.count.toNat).map
             (loggedLine w c (loadWords content)
               (get_env_or_empty (envAfterLoad w c) PASSGEN_PEPPER))
         else []⟩ := by
  have hsel : ∀ i, 0 ≤ i → i < 0 + c.count.toNat →
      c.words_per_password.toNat ≤ (select (loadWords content) (w.sample i)).length := by
    intro i _ hi
    obtain ⟨h1, h2⟩ := hsample i (by omega)
    rw [select_length _ _ h1, h2]
    omega
  unfold main
  rw [hparse]
  simp only
  rw [if_neg (by rintro ⟨h1, h2⟩; exact hpep h1 h2), hfile]
  simp only
  rw [if_neg (by omega), if_neg (by
    rintro ⟨h1, h2⟩
    rcases hlog with h | h
    · exact h1 h
    · rw [h] at h2; exact absurd h2 (by simp)),
    generate_run w c _ _ 0 _ [] [] hsel hpep]
  simp [List.range_eq_range']

/-! ## Word selection -/

/-- C4, as amended: for a word list of size `K`, a request `M ≤ K` and every
choice `std::sample` can make, the passphrase is built from exactly `M` words
taken at distinct positions of the list in list order (a sublist), each an
entry of the list; they are pairwise distinct as strings when the entries of
the list are. -/
theorem selected_words_are_a_sublist (c : Config) (words : List Str) (mask : List Bool)
    (num : Nat) (hMK : c.words_per_password.toNat ≤ words.length)
    (hmask : IsSampleOf words.length c.words_per_password.toNat mask) :
    (select words mask).length = c.words_per_password.toNat
    ∧ (select words mask).Sublist words
    ∧ (∀ x ∈ select words mask, x ∈ words)
    ∧ (words.Nodup → (select words mask).Nodup)
    ∧ passwordBase c (select words mask) num
        = "-".toList.intercalate
            (if c.do_cap then (select words mask).map capitalize_first else select words mask)
          ++ "-".toList ++ fourDigitField num := by
  have hlen : (select words mask).length = c.words_per_password.toNat := by
    rw [select_length words mask hmask.1, hmask.2]
    omega
  have hsub := select_sublist words mask
  exact ⟨hlen, hsub, fun x hx => hsub.subset hx, fun hn => hsub.nodup hn,
    passwordBase_eq c _ num hlen.symm⟩

/-- C4 as amended, at the four-word list of `exampleWorld`, positions 0 and 2. -/
theorem selected_words_are_a_sublist_witness :
    (select (loadWords "alpha\n  bravo \r\n\ncharlie\ndelta".toList)
        [true, false, true, false]).length = defaults.words_per_password.toNat
    ∧ (select (loadWords "alpha\n  bravo \r\n\ncharlie\ndelta".toList)
        [true, false, true, false]).Sublist
          (loadWords "alpha\n  bravo \r\n\ncharlie\ndelta".toList)
    ∧ (∀ x ∈ select (loadWords "alpha\n  bravo \r\n\ncharlie\ndelta".toList)
          [true, false, true, false],
        x ∈ loadWords "alpha\n  bravo \r\n\ncharlie\ndelta".toList)
    ∧ ((loadWords "alpha\n  bravo \r\n\ncharlie\ndelta".toList).Nodup →
        (select (loadWords "alpha\n  bravo \r\n\ncharlie\ndelta".toList)
          [true, false, true, false]).Nodup)
    ∧ passwordBase defaults
          (select (loadWords "alpha\n  bravo \r\n\ncharlie\ndelta".toList)
            [true, false, true, false]) 42
        = "-".toList.intercalate
            (if defaults.do_cap then
              (select (loadWords "alpha\n  bravo \r\n\ncharlie\ndelta".toList)
                [true, false, true, false]).map capitalize_first
             else select (loadWords "alpha\n  bravo \r\n\ncharlie\ndelta".toList)
                [true, false, true, false])
          ++ "-".toList ++ fourDigitField 42 :=
  selected_words_are_a_sublist defaults
    (loadWords "alpha\n  bravo \r\n\ncharlie\ndelta".toList) [true, false, true, false] 42
    (by decide) (by unfold IsSampleOf; decide)

/-- C4 as stated fails: a list that holds `alpha` twice, `M = K = 2`, both
positions chosen; the two words of the passphrase are the same string. -/
theorem selected_words_not_distinct :
    loadWords "alpha\nalpha\n".toList = ["alpha".toList, "alpha".toList]
    ∧ (1 ≤ 2 ∧ 2 ≤ (loadWords "alpha\nalpha\n".toList).length)
    ∧ ([true, true].length = (loadWords "alpha\nalpha\n".toList).length
        ∧ [true, true].count true = 2)
    ∧ ¬ (select (loadWords "alpha\nalpha\n".toList) [true, true]).Nodup
    ∧ main repeatedWordWorld "passgen".toList
          ["--count".toList, "1".toList, "--no-capitalize".toList]
        = ⟨.exit 0, ["alpha-alpha-0042".toList], [], []⟩ := by
  decide

/-! ## Capitalization -/

theorem loadWords_mem (content : Str) (x : Str) (h : x ∈ loadWords content) :
    x ≠ [] ∧ ∃ line ∈ getlines content, x = trim line := by
  unfold loadWords at h
  rw [List.mem_filter, List.mem_map] at h
  obtain ⟨⟨line, hl, he⟩, hne⟩ := h
  exact ⟨by simpa using hne, line, hl, he.symm⟩

/-- C10: with capitalization enabled (the default, or `--capitalize`) every
selected word enters the passphrase through `capitalize_first`, which replaces
the first character by its upper-case form and leaves the rest unchanged (same
length, the empty string unchanged, idempotent); with `--no-capitalize` every
selected word enters it unchanged, and it is the trimmed text of a line of the
word list. -/
theorem capitalization_toggle (c : Config) (pick : List Str) (num : Nat)
    (hM : c.words_per_password.toNat = pick.length) :
    (c.do_cap = true → passwordBase c pick num
        = "-".toList.intercalate (pick.map capitalize_first)
          ++ "-".toList ++ fourDigitField num)
    ∧ (c.do_cap = false → passwordBase c pick num
        = "-".toList.intercalate pick ++ "-".toList ++ fourDigitField num)
    ∧ (∀ (ch : Char) (rest : Str), capitalize_first (ch :: rest) = toupper ch :: rest)
    ∧ capitalize_first [] = []
    ∧ (∀ s : Str, (capitalize_first s).length = s.length)
    ∧ (∀ s : Str, capitalize_first (capitalize_first s) = capitalize_first s)
    ∧ defaults.do_cap = true
    ∧ (∀ (c0 : Config) (rest : List Str), parseFlags c0 ("--capitalize".toList :: rest)
        = parseFlags { c0 with do_cap := true } rest)
    ∧ (∀ (c0 : Config) (rest : List Str), parseFlags c0 ("--no-capitalize".toList :: rest)
        = parseFlags { c0 with do_cap := false } rest)
    ∧ (∀ (content : Str) (mask : List Bool), ∀ x ∈ select (loadWords content) mask,
        ∃ line ∈ getlines content, x = trim line) := by
  refine ⟨?_, ?_, fun _ _ => rfl, rfl, capitalize_first_length, capitalize_first_idem, rfl,
    parseFlags_capitalize, parseFlags_no_capitalize, ?_⟩
  · intro h
    rw [passwordBase_eq c pick num hM, h]
    rfl
  · intro h
    rw [passwordBase_eq c pick num hM, h]
    rfl
  · intro content mask x hx
    exact (loadWords_mem content x ((select_sublist _ mask).subset hx)).2

/-- C10 at the defaults (capitalization enabled) and under `--no-capitalize`,
for the words `alpha`, `charlie` and the number 7. -/
theorem capitalization_toggle_witness :
    passwordBase defaults ["alpha".toList, "charlie".toList] 7
        = "-".toList.intercalate (["alpha".toList, "charlie".toList].map capitalize_first)
          ++ "-".toList ++ fourDigitField 7
    ∧ passwordBase { defaults with do_cap := false } ["alpha".toList, "charlie".toList] 7
        = "-".toList.intercalate ["alpha".toList, "charlie".toList]
          ++ "-".toList ++ fourDigitField 7 :=
  ⟨(capitalization_toggle defaults ["alpha".toList, "charlie".toList] 7 (by decide)).1
      (by decide),
   (capitalization_toggle { defaults with do_cap := false }
      ["alpha".toList, "charlie".toList] 7 (by decide)).2.1 (by decide)⟩

/-! ## Failures before any passphrase is printed -/

theorem loadWords_length (content : Str) :
    (loadWords content).length
      = ((getlines content).filter (fun l => decide (trim l ≠ []))).length := by
  unfold loadWords
  rw [List.filter_map, List.length_map]
  rfl

/-- C5: when the arguments parse and the word-list file has fewer lines that
are non-empty after trimming than the effective words-per-passphrase value `M`
(at least 1), the program exits with code 1, has printed no passphrase and has
written no log entry. -/
theorem main_short_word_list (w : World) (prog : Str) (args : List Str) (c : Config)
    (content : Str)
    (hparse : parseArgs args = .ok c)
    (hfile : w.file c.wordspath = some content)
    (hshort : ((getlines content).filter (fun l => decide (trim l ≠ []))).length
      < c.words_per_password.toNat) :
    (main w prog args).outcome = .exit 1
    ∧ (main w prog args).stdout = []
    ∧ (main w prog args).log = []
    ∧ 1 ≤ c.words_per_password := by
  rw [← loadWords_length] at hshort
  refine ⟨?_, ?_, ?_, (parseArgs_at_least_one args c hparse).2⟩ <;>
  · unfold main
    rw [hparse]
    simp only
    split
    · rfl
    · rw [hfile]
      simp only
      rw [if_pos hshort]

/-- C5 for `--words 5` and the four-word list of `exampleWorld`. -/
theorem main_short_word_list_witness :
    (main exampleWorld "passgen".toList ["--words".toList, "5".toList]).outcome = .exit 1
    ∧ (main exampleWorld "passgen".toList ["--words".toList, "5".toList]).stdout = []
    ∧ (main exampleWorld "passgen".toList ["--words".toList, "5".toList]).log = []
    ∧ 1 ≤ ({ defaults with words_per_password := 5 } : Config).words_per_password :=
  main_short_word_list exampleWorld "passgen".toList ["--words".toList, "5".toList]
    { defaults with words_per_password := 5 } "alpha\n  bravo \r\n\ncharlie\ndelta".toList
    (by decide) (by decide) (by decide)

/-- C6: when `--pepper` is met by the flag loop (after arguments `pre` that
parse) and the whole argument list parses, and `PASSGEN_PEPPER` is absent or
empty in the environment after `.env` and the `--env` file have been loaded,
the program exits with code 1, has printed no passphrase and has written no log
entry, whatever the word list. -/
theorem main_pepper_without_secret (w : World) (prog : Str) (args pre post : List Str)
    (c1 c : Config)
    (hargs : flagArgs args = pre ++ "--pepper".toList :: post)
    (hpre : parseFlags (initialConfig args) pre = .ok c1)
    (hparse : parseArgs args = .ok c)
    (hsecret :
      getenv (load_dotenv w.file c.envfile (load_dotenv w.file ".env".toList w.environ))
          PASSGEN_PEPPER = none
      ∨ getenv (load_dotenv w.file c.envfile (load_dotenv w.file ".env".toList w.environ))
          PASSGEN_PEPPER = some []) :
    (main w prog args).outcome = .exit 1
    ∧ (main w prog args).stdout = []
    ∧ (main w prog args).log = [] := by
  have hu : c.use_pepper = true := by
    have h := hparse
    unfold parseArgs at h
    rw [hargs, parseFlags_append _ pre.length pre _ c1 (Nat.le_refl _) hpre,
      parseFlags_pepper] at h
    exact parseFlags_keeps_pepper post _ c h rfl
  have he : get_env_or_empty (envAfterLoad w c) PASSGEN_PEPPER = [] := by
    unfold envAfterLoad get_env_or_empty
    rw [if_pos hu]
    rcases hsecret with h | h <;> rw [h]
  refine ⟨?_, ?_, ?_⟩ <;>
  · unfold main
    rw [hparse]
    simp only
    rw [if_pos ⟨hu, he⟩]

/-- C6 for `--count 3 --pepper` in a world without a pepper. -/
theorem main_pepper_without_secret_witness :
    (main noPepperWorld "passgen".toList
        ["--count".toList, "3".toList, "--pepper".toList]).outcome = .exit 1
    ∧ (main noPepperWorld "passgen".toList
        ["--count".toList, "3".toList, "--pepper".toList]).stdout = []
    ∧ (main noPepperWorld "passgen".toList
        ["--count".toList, "3".toList, "--pepper".toList]).log = [] :=
  main_pepper_without_secret noPepperWorld "passgen".toList
    ["--count".toList, "3".toList, "--pepper".toList] ["--count".toList, "3".toList] []
    { defaults with count := 3 } { defaults with count := 3, use_pepper := true }
    (by decide) (by decide) (by decide) (Or.inl (by decide))

/-! ## Help and argument errors -/

theorem help_in_flag_position (w : World) (prog : Str) (args pre post : List Str) (arg : Str)
    (c1 : Config)
    (hargs : flagArgs args = pre ++ arg :: post)
    (hpre : parseFlags (initialConfig args) pre = .ok c1)
    (harg : arg = "-h".toList ∨ arg = "--help".toList) :
    main w prog args = ⟨.exit 0, [], [print_usage prog], []⟩ := by
  have hp : parseArgs args = .help := by
    unfold parseArgs
    rw [hargs, parseFlags_append _ pre.length pre _ c1 (Nat.le_refl _) hpre]
    rcases harg with h | h <;> subst h
    · exact parseFlags_h c1 post
    · exact parseFlags_help c1 post
  unfold main
  rw [hp]

/-- C7 fails at `passgen -h`: the first argument does not start with `--`, so
lines 161-167 take it as the word-list path and the flag loop never sees it;
with no file of that name the run ends with exit code 1 and no usage text,
while `--help` in the same place, and `-h` after a word-list path, print the
usage text and exit with code 0. -/
theorem short_help_flag_first_is_a_path :
    parseArgs ["-h".toList] = .ok { defaults with wordspath := "-h".toList }
    ∧ main exampleWorld "passgen".toList ["-h".toList]
        = ⟨.exit 1, [], ["Failed to open word list: -h\n".toList], []⟩
    ∧ main exampleWorld "passgen".toList ["--help".toList]
        = ⟨.exit 0, [], [print_usage "passgen".toList], []⟩
    ∧ main exampleWorld "passgen".toList ["words.txt".toList, "-h".toList]
        = ⟨.exit 0, [], [print_usage "passgen".toList], []⟩ := by
  refine ⟨by decide, by decide, rfl, rfl⟩

/-- What the flag loop does, after arguments `pre` that parse, with an argument
it cannot use: an argument that is none of the known flags, or a flag that
lacks its value, is reported with the usage text and `main` returns 1; a
`--count` or `--words` value on which `std::stoi` throws leaves `main` by that
exception. -/
theorem flag_loop_argument_error (w : World) (prog : Str) (args pre post : List Str)
    (bad : Str) (c1 : Config)
    (hargs : flagArgs args = pre ++ bad :: post)
    (hpre : parseFlags (initialConfig args) pre = .ok c1) :
    (bad ∉ knownFlags →
      main w prog args
        = ⟨.exit 1, [],
            ["Unknown option: ".toList ++ bad ++ "\n".toList, print_usage prog], []⟩)
    ∧ (post = [] →
        bad ∈ ["--count".toList, "--words".toList, "--log".toList, "--wordspath".toList,
          "--env".toList] →
      main w prog args
        = ⟨.exit 1, [],
            ["Unknown option: ".toList ++ bad ++ "\n".toList, print_usage prog], []⟩)
    ∧ (∀ (v : Str) (post' : List Str) (e : StoiError), post = v :: post' →
        bad = "--count".toList ∨ bad = "--words".toList → stoi v = .error e →
      main w prog args = ⟨.uncaught e, [], [], []⟩) := by
  have hp : parseArgs args = parseFlags c1 (bad :: post) := by
    unfold parseArgs
    rw [hargs, parseFlags_append _ pre.length pre _ c1 (Nat.le_refl _) hpre]
  refine ⟨?_, ?_, ?_⟩
  · intro hb
    unfold main
    rw [hp, parseFlags_unknown c1 bad post hb]
  · intro hpost hb
    unfold main
    rw [hp, hpost, parseFlags_value_missing c1 bad hb]
  · intro v post' e hpost hb hs
    unfold main
    rw [hp, hpost]
    rcases hb with hb | hb <;> subst hb
    · rw [parseFlags_count, hs]
    · rw [parseFlags_words, hs]

/-- C8 fails at `passgen --count abc`: the value goes to `std::stoi` unchecked
(lines 179, 181), `std::invalid_argument` is thrown and nothing catches it, so
the process ends by that exception, with no report of its own and not with exit
code 1; `--words 99999999999` ends the same way by `std::out_of_range`, and
`--count 1x`, not a decimal integer either, is taken as 1 and a passphrase is
printed with exit code 0.  The sibling argument errors of lines 196-200, an
unknown flag and a flag without its value, are reported with the usage text and
exit code 1. -/
theorem malformed_number_is_not_reported :
    stoi "abc".toList = .error .invalid_argument
    ∧ main exampleWorld "passgen".toList ["--count".toList, "abc".toList]
        = ⟨.uncaught .invalid_argument, [], [], []⟩
    ∧ (main exampleWorld "passgen".toList ["--count".toList, "abc".toList]).outcome
        ≠ .exit 1
    ∧ main exampleWorld "passgen".toList ["--words".toList, "99999999999".toList]
        = ⟨.uncaught .out_of_range, [], [], []⟩
    ∧ main exampleWorld "passgen".toList ["--count".toList, "1x".toList]
        = ⟨.exit 0, ["Alpha-Charlie-0042".toList], [], []⟩
    ∧ main exampleWorld "passgen".toList ["--bogus".toList]
        = ⟨.exit 1, [],
            ["Unknown option: --bogus\n".toList, print_usage "passgen".toList], []⟩
    ∧ main exampleWorld "passgen".toList ["--count".toList]
        = ⟨.exit 1, [],
            ["Unknown option: --count\n".toList, print_usage "passgen".toList], []⟩ := by
  refine ⟨rfl, by decide, by decide, by decide, by decide, rfl, rfl⟩

/-! ## What a successful run prints -/

theorem decimal4_value (num : Nat) (h : num ≤ 9999) :
    (decimal4 num).length = 4
    ∧ (∀ ch ∈ decimal4 num, ch.isDigit = true)
    ∧ decimalValue (decimal4 num) = num := by
  have e : decimal4 num = fourDigitField num := (fourDigitField_eq num h).symm
  rw [e]
  exact fourDigitField_value num h

/-- C9: in a run that reaches the generation loop (arguments parse, the word
list has at least `M` words, the log file opens, a pepper is set when tagging
is on, `std::sample` returns `M` words, each number drawn is in `0..9999`),
pass `n` prints `base = w1-...-wM-NNNN`, `NNNN` being the 4 decimal digits of
the number with leading zeros, when tagging is off, and
`base-pepper_tag4(base, pepper)` when it is on; the run exits with code 0. -/
theorem main_prints_base_then_tag (w : World) (prog : Str) (args : List Str) (c : Config)
    (content : Str)
    (hparse : parseArgs args = .ok c)
    (hfile : w.file c.wordspath = some content)
    (hlog : c.logfile = [] ∨ w.logOpens c.logfile = true)
    (hpep : c.use_pepper = true → get_env_or_empty (envAfterLoad w c) PASSGEN_PEPPER ≠ [])
    (hsample : ∀ n, n < c.count.toNat →
      IsSampleOf (loadWords content).length c.words_per_password.toNat (w.sample n))
    (hM : c.words_per_password.toNat ≤ (loadWords content).length)
    (hnum : ∀ n, n < c.count.toNat → w.fourDigits n ≤ 9999) :
    (main w prog args).outcome = .exit 0
    ∧ (main w prog args).stdout
        = (List.range c.count.toNat).map (fun n =>
            if c.use_pepper then
              ("-".toList.intercalate
                  (if c.do_cap then
                    (select (loadWords content) (w.sample n)).map capitalize_first
                   else select (loadWords content) (w.sample n))
                ++ "-".toList ++ decimal4 (w.fourDigits n))
              ++ "-".toList
              ++ pepper_tag4 w.hmac
                  ("-".toList.intercalate
                      (if c.do_cap then
                        (select (loadWords content) (w.sample n)).map capitalize_first
                       else select (loadWords content) (w.sample n))
                    ++ "-".toList ++ decimal4 (w.fourDigits n))
                  (get_env_or_empty (envAfterLoad w c) PASSGEN_PEPPER)
            else
              "-".toList.intercalate
                  (if c.do_cap then
                    (select (loadWords content) (w.sample n)).map capitalize_first
                   else select (loadWords content) (w.sample n))
                ++ "-".toList ++ decimal4 (w.fourDigits n))
    ∧ (∀ n, n < c.count.toNat →
        (select (loadWords content) (w.sample n)).length = c.words_per_password.toNat
        ∧ 1 ≤ c.words_per_password.toNat
        ∧ (decimal4 (w.fourDigits n)).length = 4
        ∧ (∀ ch ∈ decimal4 (w.fourDigits n), ch.isDigit = true)
        ∧ decimalValue (decimal4 (w.fourDigits n)) = w.fourDigits n) := by
  have hlen : ∀ n, n < c.count.toNat →
      (select (loadWords content) (w.sample n)).length = c.words_per_password.toNat := by
    intro n hn
    obtain ⟨h1, h2⟩ := hsample n hn
    rw [select_length _ _ h1, h2]
    omega
  rw [main_run w prog args c content hparse hfile hlog hpep hsample hM]
  refine ⟨rfl, ?_, ?_⟩
  · apply List.map_congr_left
    intro n hn
    have hn' : n < c.count.toNat := List.mem_range.mp hn
    unfold printedLine
    simp only
    rw [passwordBase_eq c _ _ (hlen n hn').symm, fourDigitField_eq _ (hnum n hn')]
    rfl
  · intro n hn
    have h1 := (parseArgs_at_least_one args c hparse).2
    have hd := decimal4_value (w.fourDigits n) (hnum n hn)
    exact ⟨hlen n hn, by omega, hd.1, hd.2.1, hd.2.2⟩

/-- C9 for `--count 2 --pepper` in `exampleWorld`: two tagged passphrases. -/
theorem main_prints_base_then_tag_witness :
    (main exampleWorld "passgen".toList
        ["--count".toList, "2".toList, "--pepper".toList]).outcome = .exit 0
    ∧ (main exampleWorld "passgen".toList
        ["--count".toList, "2".toList, "--pepper".toList]).stdout
        = ["Alpha-Charlie-0042-AAAA".toList, "Bravo-Charlie-0049-AAAA".toList] :=
  ⟨(main_prints_base_then_tag exampleWorld "passgen".toList
      ["--count".toList, "2".toList, "--pepper".toList]
      { defaults with count := 2, use_pepper := true }
      "alpha\n  bravo \r\n\ncharlie\ndelta".toList
      (by decide) (by decide) (by decide) (by decide) (by decide) (by decide) (by decide)).1,
   (main_prints_base_then_tag exampleWorld "passgen".toList
      ["--count".toList, "2".toList, "--pepper".toList]
      { defaults with count := 2, use_pepper := true }
      "alpha\n  bravo \r\n\ncharlie\ndelta".toList
      (by decide) (by decide) (by decide) (by decide) (by decide) (by decide)
      (by decide)).2.1.trans (by decide)⟩

end Passgen
